import Mathlib

/-!
Shallow embedding of `src/NWayMerge.cpp` (an N-way merge of sorted integer
lists driven by a min-heap) and proofs of the specification's claims about it.

The C++ `std::vector<int>` becomes `List Int`, `size_t` indices become `Nat`.
`std::priority_queue<Element, std::vector<Element>, std::greater<Element>>`
is modelled by its contract: a container of `Element`s from which `top`/`pop`
removes an element that is minimal with respect to the comparator
(`std::greater` calls `Element::operator>`, which compares `value` only).
The C++ standard leaves the choice among comparator-equivalent elements to
the heap internals; the model fixes the earliest-inserted minimal element,
a deterministic refinement of that contract.  All output-level claims
proved below are insensitive to this choice because only `value` is emitted.
-/

/-- Embeds `struct Element` (NWayMerge.cpp lines 15-24): the payload `value`,
the index of the originating list, and the position inside that list. -/
structure Element where
  value : Int
  list_index : Nat
  element_index : Nat
  deriving DecidableEq, Repr

/-- Embeds `Element::operator>` (lines 21-23): comparison by `value` only. -/
def Element.gtOp (a b : Element) : Bool :=
  a.value > b.value

/-- Extraction of a minimal element from the modelled priority queue:
`top()`/`pop()` of the min-heap.  Returns the minimal element (w.r.t. the
comparator `Element.gtOp`, i.e. minimal `value`; the earliest among ties)
together with the remaining contents, or `none` when the heap is empty. -/
def extractMin : List Element → Option (Element × List Element)
  | [] => none
  | e :: es =>
    match extractMin es with
    | none => some (e, [])
    | some (m, rest) => if Element.gtOp e m then some (m, e :: rest) else some (e, es)

/-- Number of not-yet-consumed elements of the source a candidate points into
(counted from its cursor); used as the termination measure. -/
def remaining (lists : List (List Int)) (e : Element) : Nat :=
  (lists.getD e.list_index []).length - e.element_index

/-- Total number of not-yet-consumed elements over a whole heap. -/
def heapRem (lists : List (List Int)) (h : List Element) : Nat :=
  (h.map (remaining lists)).sum

/-- One iteration of the drain loop (lines 101-121): pop the minimal element,
emit its `value`, and if the same list has a next element push the successor
candidate.  `none` when the heap is empty (loop exit). -/
def step (lists : List (List Int)) (heap : List Element) : Option (Int × List Element) :=
  match extractMin heap with
  | none => none
  | some (m, rest) =>
    let next_element_index := m.element_index + 1
    let list_idx := m.list_index
    if next_element_index < (lists.getD list_idx []).length then
      some (m.value, ⟨(lists.getD list_idx []).getD next_element_index 0,
                      list_idx, next_element_index⟩ :: rest)
    else
      some (m.value, rest)

theorem extractMin_eq_none {h : List Element} : extractMin h = none ↔ h = [] := by
  constructor
  · intro hn
    cases h with
    | nil => rfl
    | cons e es =>
      simp only [extractMin] at hn
      rcases he : extractMin es with _ | p
      · rw [he] at hn; simp at hn
      · rw [he] at hn
        rcases p with ⟨m, rest⟩
        by_cases hg : Element.gtOp e m <;> simp [hg] at hn
  · intro hh; subst hh; rfl

theorem extractMin_perm {h : List Element} {m : Element} {rest : List Element}
    (he : extractMin h = some (m, rest)) : h.Perm (m :: rest) := by
  induction h generalizing m rest with
  | nil => simp [extractMin] at he
  | cons e es ih =>
    rcases hes : extractMin es with _ | ⟨m0, rest0⟩
    · have hnil : es = [] := extractMin_eq_none.mp hes
      subst hnil
      simp only [extractMin, hes] at he
      simp at he
      obtain ⟨rfl, rfl⟩ := he
      exact List.Perm.refl _
    · simp only [extractMin, hes] at he
      by_cases hg : Element.gtOp e m0 = true
      · rw [if_pos hg] at he
        simp at he
        obtain ⟨rfl, rfl⟩ := he
        exact ((ih hes).cons e).trans (List.Perm.swap m0 e rest0)
      · rw [if_neg hg] at he
        simp at he
        obtain ⟨rfl, rfl⟩ := he
        exact List.Perm.refl _

theorem extractMin_min {h : List Element} {m : Element} {rest : List Element}
    (he : extractMin h = some (m, rest)) : ∀ x ∈ h, m.value ≤ x.value := by
  induction h generalizing m rest with
  | nil => simp [extractMin] at he
  | cons e es ih =>
    rcases hes : extractMin es with _ | ⟨m0, rest0⟩
    · have hnil : es = [] := extractMin_eq_none.mp hes
      subst hnil
      simp only [extractMin, hes] at he
      simp at he
      obtain ⟨rfl, rfl⟩ := he
      intro x hx
      simp at hx
      subst hx
      exact le_refl _
    · simp only [extractMin, hes] at he
      by_cases hg : Element.gtOp e m0 = true
      · rw [if_pos hg] at he
        simp at he
        obtain ⟨rfl, rfl⟩ := he
        have hlt : m0.value < e.value := by
          simpa [Element.gtOp] using hg
        intro x hx
        rcases List.mem_cons.mp hx with rfl | hx'
        · exact le_of_lt hlt
        · exact ih hes x hx'
      · rw [if_neg hg] at he
        simp at he
        obtain ⟨rfl, rfl⟩ := he
        have hle : e.value ≤ m0.value := by
          have := hg
          simp [Element.gtOp] at this
          exact this
        intro x hx
        rcases List.mem_cons.mp hx with rfl | hx'
        · exact le_refl _
        · exact le_trans hle (ih hes x hx')

theorem heapRem_perm {lists : List (List Int)} {h₁ h₂ : List Element}
    (hp : h₁.Perm h₂) : heapRem lists h₁ = heapRem lists h₂ :=
  (hp.map (remaining lists)).sum_eq

theorem step_measure {lists : List (List Int)} {heap : List Element}
    {v : Int} {heap' : List Element} (hs : step lists heap = some (v, heap')) :
    2 * heapRem lists heap' + heap'.length < 2 * heapRem lists heap + heap.length := by
  rcases he : extractMin heap with _ | ⟨m, rest⟩
  · simp [step, he] at hs
  · simp only [step, he] at hs
    have hperm := extractMin_perm he
    have hlen : heap.length = rest.length + 1 := by
      simpa using hperm.length_eq
    have hrem : heapRem lists heap = remaining lists m + heapRem lists rest := by
      rw [heapRem_perm hperm]; simp [heapRem]
    by_cases hnext : m.element_index + 1 < (lists.getD m.list_index []).length
    · rw [if_pos hnext] at hs
      simp at hs
      obtain ⟨rfl, rfl⟩ := hs
      have hnew : ∀ v : Int, heapRem lists (⟨v, m.list_index, m.element_index + 1⟩ :: rest)
          = ((lists.getD m.list_index []).length - (m.element_index + 1)) + heapRem lists rest := by
        intro v
        simp [heapRem, remaining]
      rw [hnew, hrem, hlen]
      simp only [remaining, List.length_cons]
      omega
    · rw [if_neg hnext] at hs
      simp at hs
      obtain ⟨rfl, rfl⟩ := hs
      rw [hrem, hlen]
      simp only [remaining]
      omega

/-- Embeds the drain loop of `MergeLists` (lines 100-121): repeatedly pop the
minimum, append its value to the result, and push the successor candidate of
the same source when one exists, until the heap empties. -/
def drain (lists : List (List Int)) (heap : List Element) : List Int :=
  match hs : step lists heap with
  | none => []
  | some vh => vh.1 :: drain lists vh.2
termination_by 2 * heapRem lists heap + heap.length
decreasing_by
  exact step_measure hs

/-- Embeds the seeding loop of `MergeLists` (lines 88-97), walking the lists
with their running index `i`: every non-empty list contributes the candidate
`{lists[i][0], i, 0}`. -/
def seedFrom : Nat → List (List Int) → List Element
  | _, [] => []
  | i, [] :: rest => seedFrom (i + 1) rest
  | i, (v :: _) :: rest => ⟨v, i, 0⟩ :: seedFrom (i + 1) rest

/-- Initial heap contents of `MergeLists`: first element of each non-empty list. -/
def seed (lists : List (List Int)) : List Element :=
  seedFrom 0 lists

/-- Embeds `NWayMerger::MergeLists` (lines 84-124): seed the min-heap with the
first element of every non-empty list, then drain it. -/
def MergeLists (lists : List (List Int)) : List Int :=
  drain lists (seed lists)

/-- Well-formedness of a candidate: its cursor is in range for its source and
its payload is the source element at the cursor (the unfailing `getD` view of
the C++ accesses `lists[list_idx][element_index]`). -/
def WFel (lists : List (List Int)) (e : Element) : Prop :=
  e.element_index < (lists.getD e.list_index []).length ∧
  e.value = (lists.getD e.list_index []).getD e.element_index 0

/-- Suffix of a candidate's source from its cursor on: the elements of that
source not yet consumed by the merge. -/
def tailFrom (lists : List (List Int)) (e : Element) : List Int :=
  (lists.getD e.list_index []).drop e.element_index

theorem drain_eq_nil {lists : List (List Int)} {heap : List Element}
    (hs : step lists heap = none) : drain lists heap = [] := by
  rw [drain, hs]

theorem drain_eq_cons {lists : List (List Int)} {heap : List Element}
    {v : Int} {heap' : List Element} (hs : step lists heap = some (v, heap')) :
    drain lists heap = v :: drain lists heap' := by
  rw [drain, hs]

theorem getElem?_of_drop {lists : List (List Int)} {i : Nat} {l : List Int}
    {ls : List (List Int)} (hd : lists.drop i = l :: ls) : lists[i]? = some l := by
  have := List.getElem?_drop lists i 0
  rw [hd] at this
  simpa using this.symm

theorem getD_of_drop {lists : List (List Int)} {i : Nat} {l : List Int}
    {ls : List (List Int)} (hd : lists.drop i = l :: ls) : lists.getD i [] = l := by
  simp [List.getD_eq_getElem?_getD, getElem?_of_drop hd]

theorem drop_succ_of_drop {lists : List (List Int)} {i : Nat} {l : List Int}
    {ls : List (List Int)} (hd : lists.drop i = l :: ls) : lists.drop (i + 1) = ls := by
  have : lists.drop (i + 1) = (lists.drop i).drop 1 := by
    rw [List.drop_drop]
  rw [this, hd]
  rfl

theorem seedFrom_wf {lists : List (List Int)} :
    ∀ (suffix : List (List Int)) (i : Nat), lists.drop i = suffix →
      ∀ e ∈ seedFrom i suffix, WFel lists e := by
  intro suffix
  induction suffix with
  | nil => intro i _ e he; simp [seedFrom] at he
  | cons l ls ih =>
    intro i hd e he
    cases l with
    | nil =>
      exact ih (i + 1) (drop_succ_of_drop hd) e (by simpa [seedFrom] using he)
    | cons v t =>
      rw [seedFrom] at he
      rcases List.mem_cons.mp he with rfl | he'
      · constructor
        · simp [WFel, getElem?_of_drop hd]
        · simp [WFel, getElem?_of_drop hd]
      · exact ih (i + 1) (drop_succ_of_drop hd) e he'

theorem seedFrom_join {lists : List (List Int)} :
    ∀ (suffix : List (List Int)) (i : Nat), lists.drop i = suffix →
      ((seedFrom i suffix).map (tailFrom lists)).flatten = suffix.flatten := by
  intro suffix
  induction suffix with
  | nil => intro i _; simp [seedFrom]
  | cons l ls ih =>
    intro i hd
    cases l with
    | nil =>
      rw [seedFrom]
      simp only [List.flatten_cons, List.nil_append]
      exact ih (i + 1) (drop_succ_of_drop hd)
    | cons v t =>
      rw [seedFrom]
      simp only [List.map_cons, List.flatten_cons]
      rw [ih (i + 1) (drop_succ_of_drop hd)]
      have : tailFrom lists ⟨v, i, 0⟩ = v :: t := by
        simp [tailFrom, getElem?_of_drop hd]
      rw [this]

theorem seedFrom_index_ge :
    ∀ (suffix : List (List Int)) (i : Nat) (e : Element),
      e ∈ seedFrom i suffix → i ≤ e.list_index := by
  intro suffix
  induction suffix with
  | nil => intro i e he; simp [seedFrom] at he
  | cons l ls ih =>
    intro i e he
    cases l with
    | nil =>
      have := ih (i + 1) e (by simpa [seedFrom] using he)
      omega
    | cons v t =>
      rw [seedFrom] at he
      rcases List.mem_cons.mp he with rfl | he'
      · exact le_refl _
      · have := ih (i + 1) e he'
        omega

theorem seedFrom_nodup :
    ∀ (suffix : List (List Int)) (i : Nat),
      ((seedFrom i suffix).map Element.list_index).Nodup := by
  intro suffix
  induction suffix with
  | nil => intro i; simp [seedFrom]
  | cons l ls ih =>
    intro i
    cases l with
    | nil => rw [seedFrom]; exact ih (i + 1)
    | cons v t =>
      rw [seedFrom]
      simp only [List.map_cons, List.nodup_cons]
      refine ⟨?_, ih (i + 1)⟩
      intro hmem
      rcases List.mem_map.mp hmem with ⟨e, he, hidx⟩
      have := seedFrom_index_ge ls (i + 1) e he
      omega

theorem seed_wf {lists : List (List Int)} : ∀ e ∈ seed lists, WFel lists e :=
  seedFrom_wf lists 0 rfl

theorem seed_join {lists : List (List Int)} :
    ((seed lists).map (tailFrom lists)).flatten = lists.flatten :=
  seedFrom_join lists 0 rfl

theorem step_spec {lists : List (List Int)} {heap : List Element} {m : Element}
    {rest : List Element} (he : extractMin heap = some (m, rest)) :
    step lists heap =
      if m.element_index + 1 < (lists.getD m.list_index []).length then
        some (m.value, ⟨(lists.getD m.list_index []).getD (m.element_index + 1) 0,
                        m.list_index, m.element_index + 1⟩ :: rest)
      else
        some (m.value, rest) := by
  simp only [step, he]

theorem getD_eq_getElem_of_lt {l : List Int} {i : Nat} (h : i < l.length) :
    l.getD i 0 = l[i] := by
  simp [List.getD_eq_getElem?_getD, List.getElem?_eq_getElem h]

theorem tailFrom_cons {lists : List (List Int)} {m : Element} (hwf : WFel lists m) :
    tailFrom lists m
      = m.value :: (lists.getD m.list_index []).drop (m.element_index + 1) := by
  obtain ⟨hlt, hval⟩ := hwf
  unfold tailFrom
  rw [List.drop_eq_getElem_cons hlt]
  rw [hval, getD_eq_getElem_of_lt hlt]

theorem step_none_iff {lists : List (List Int)} {heap : List Element} :
    step lists heap = none ↔ heap = [] := by
  constructor
  · intro hs
    rcases he : extractMin heap with _ | ⟨m, rest⟩
    · exact extractMin_eq_none.mp he
    · rw [step_spec he] at hs
      split at hs <;> simp at hs
  · intro hh; subst hh; rfl

theorem drain_perm_aux (lists : List (List Int)) :
    ∀ (n : Nat) (heap : List Element), 2 * heapRem lists heap + heap.length ≤ n →
      (∀ e ∈ heap, WFel lists e) →
      (drain lists heap).Perm ((heap.map (tailFrom lists)).flatten) := by
  intro n
  induction n with
  | zero =>
    intro heap hn _
    have hnil : heap = [] := by
      cases heap with
      | nil => rfl
      | cons e es => simp at hn
    subst hnil
    rw [drain_eq_nil (step_none_iff.mpr rfl)]
    simp
  | succ n ih =>
    intro heap hn hwf
    rcases he : extractMin heap with _ | ⟨m, rest⟩
    · have hnil : heap = [] := extractMin_eq_none.mp he
      subst hnil
      rw [drain_eq_nil (step_none_iff.mpr rfl)]
      simp
    · have hperm := extractMin_perm he
      have hmmem : m ∈ heap := hperm.mem_iff.mpr (List.mem_cons_self _ _)
      have hwfm : WFel lists m := hwf m hmmem
      have hflat : ((heap.map (tailFrom lists)).flatten).Perm
          (tailFrom lists m ++ ((rest.map (tailFrom lists)).flatten)) := by
        have h1 : (heap.map (tailFrom lists)).Perm ((m :: rest).map (tailFrom lists)) :=
          hperm.map _
        simpa using h1.flatten
      have hrestwf : ∀ e ∈ rest, WFel lists e := by
        intro e heE
        exact hwf e (hperm.mem_iff.mpr (List.mem_cons_of_mem _ heE))
      by_cases hnext : m.element_index + 1 < (lists.getD m.list_index []).length
      · set ne : Element := ⟨(lists.getD m.list_index []).getD (m.element_index + 1) 0,
          m.list_index, m.element_index + 1⟩ with hne
        have hs : step lists heap = some (m.value, ne :: rest) := by
          rw [step_spec he, if_pos hnext]
        rw [drain_eq_cons hs]
        have hm : 2 * heapRem lists (ne :: rest) + (ne :: rest).length ≤ n := by
          have := step_measure hs
          omega
        have hwf' : ∀ e ∈ ne :: rest, WFel lists e := by
          intro e heE
          rcases List.mem_cons.mp heE with rfl | heE'
          · exact ⟨hnext, rfl⟩
          · exact hrestwf e heE'
        have hih := ih (ne :: rest) hm hwf'
        have htne : tailFrom lists ne
            = (lists.getD m.list_index []).drop (m.element_index + 1) := rfl
        refine List.Perm.trans ?_ hflat.symm
        rw [tailFrom_cons hwfm]
        simp only [List.map_cons, List.flatten_cons, htne] at hih
        exact hih.cons m.value
      · have hs : step lists heap = some (m.value, rest) := by
          rw [step_spec he, if_neg hnext]
        rw [drain_eq_cons hs]
        have hm : 2 * heapRem lists rest + rest.length ≤ n := by
          have := step_measure hs
          omega
        have hih := ih rest hm hrestwf
        refine List.Perm.trans ?_ hflat.symm
        rw [tailFrom_cons hwfm]
        have hdrop : (lists.getD m.list_index []).drop (m.element_index + 1) = [] :=
          List.drop_eq_nil_of_le (by omega)
        rw [hdrop]
        exact hih.cons m.value

theorem drain_perm {lists : List (List Int)} {heap : List Element}
    (hwf : ∀ e ∈ heap, WFel lists e) :
    (drain lists heap).Perm ((heap.map (tailFrom lists)).flatten) :=
  drain_perm_aux lists _ heap (le_refl _) hwf

/-- The merge output is a permutation of the concatenation of all sources. -/
theorem mergeLists_perm (lists : List (List Int)) :
    (MergeLists lists).Perm lists.flatten := by
  have := @drain_perm lists (seed lists) seed_wf
  rw [seed_join] at this
  exact this

theorem getDl_eq_getElem {α : Type} {l : List α} {i : Nat} (h : i < l.length) (d : α) :
    l.getD i d = l[i] := by
  simp [List.getD_eq_getElem?_getD, List.getElem?_eq_getElem h]

theorem wf_list_lt {lists : List (List Int)} {e : Element} (hwf : WFel lists e) :
    e.list_index < lists.length := by
  by_contra hcon
  push_neg at hcon
  have hnone : lists[e.list_index]? = none := List.getElem?_eq_none hcon
  have hemp : lists.getD e.list_index [] = [] := by
    simp [List.getD_eq_getElem?_getD, hnone]
  obtain ⟨h1, _⟩ := hwf
  rw [hemp] at h1
  simp at h1

theorem wf_source_mem {lists : List (List Int)} {e : Element} (hwf : WFel lists e) :
    lists.getD e.list_index [] ∈ lists := by
  rw [getDl_eq_getElem (wf_list_lt hwf) []]
  exact List.getElem_mem _

theorem sorted_getD_le {l : List Int} (hs : List.Sorted (· ≤ ·) l) {i j : Nat}
    (hij : i < j) (hj : j < l.length) : l.getD i 0 ≤ l.getD j 0 := by
  rw [getDl_eq_getElem (lt_trans hij hj) 0, getDl_eq_getElem hj 0]
  have := @List.Sorted.rel_get_of_lt Int (fun a b => a ≤ b) l hs
    ⟨i, lt_trans hij hj⟩ ⟨j, hj⟩ (by simpa using hij)
  simpa using this

theorem drain_sorted_aux (lists : List (List Int))
    (hsorted : ∀ l ∈ lists, List.Sorted (· ≤ ·) l) :
    ∀ (n : Nat) (heap : List Element), 2 * heapRem lists heap + heap.length ≤ n →
      (∀ e ∈ heap, WFel lists e) →
      List.Sorted (· ≤ ·) (drain lists heap) ∧
      ∀ y ∈ drain lists heap, ∃ e ∈ heap, e.value ≤ y := by
  intro n
  induction n with
  | zero =>
    intro heap hn _
    have hnil : heap = [] := by
      cases heap with
      | nil => rfl
      | cons e es => simp at hn
    subst hnil
    rw [drain_eq_nil (step_none_iff.mpr rfl)]
    simp
  | succ n ih =>
    intro heap hn hwf
    rcases he : extractMin heap with _ | ⟨m, rest⟩
    · have hnil : heap = [] := extractMin_eq_none.mp he
      subst hnil
      rw [drain_eq_nil (step_none_iff.mpr rfl)]
      simp
    · have hperm := extractMin_perm he
      have hmmem : m ∈ heap := hperm.mem_iff.mpr (List.mem_cons_self _ _)
      have hwfm : WFel lists m := hwf m hmmem
      have hmin : ∀ x ∈ heap, m.value ≤ x.value := extractMin_min he
      have hrestwf : ∀ e ∈ rest, WFel lists e := by
        intro e heE
        exact hwf e (hperm.mem_iff.mpr (List.mem_cons_of_mem _ heE))
      have hrestmem : ∀ e ∈ rest, e ∈ heap := by
        intro e heE
        exact hperm.mem_iff.mpr (List.mem_cons_of_mem _ heE)
      by_cases hnext : m.element_index + 1 < (lists.getD m.list_index []).length
      · set ne : Element := ⟨(lists.getD m.list_index []).getD (m.element_index + 1) 0,
          m.list_index, m.element_index + 1⟩ with hne
        have hs : step lists heap = some (m.value, ne :: rest) := by
          rw [step_spec he, if_pos hnext]
        rw [drain_eq_cons hs]
        have hm : 2 * heapRem lists (ne :: rest) + (ne :: rest).length ≤ n := by
          have := step_measure hs
          omega
        have hwf' : ∀ e ∈ ne :: rest, WFel lists e := by
          intro e heE
          rcases List.mem_cons.mp heE with rfl | heE'
          · exact ⟨hnext, rfl⟩
          · exact hrestwf e heE'
        obtain ⟨hsorted', hbound'⟩ := ih (ne :: rest) hm hwf'
        have hmne : m.value ≤ ne.value := by
          rw [hne, hwfm.2]
          exact sorted_getD_le (hsorted _ (wf_source_mem hwfm)) (by omega) hnext
        have hboundm : ∀ y ∈ drain lists (ne :: rest), m.value ≤ y := by
          intro y hy
          obtain ⟨e, heE, hev⟩ := hbound' y hy
          rcases List.mem_cons.mp heE with rfl | heE'
          · exact le_trans hmne hev
          · exact le_trans (hmin e (hrestmem e heE')) hev
        constructor
        · exact List.sorted_cons.mpr ⟨hboundm, hsorted'⟩
        · intro y hy
          rcases List.mem_cons.mp hy with rfl | hy'
          · exact ⟨m, hmmem, le_refl _⟩
          · exact ⟨m, hmmem, hboundm y hy'⟩
      · have hs : step lists heap = some (m.value, rest) := by
          rw [step_spec he, if_neg hnext]
        rw [drain_eq_cons hs]
        have hm : 2 * heapRem lists rest + rest.length ≤ n := by
          have := step_measure hs
          omega
        obtain ⟨hsorted', hbound'⟩ := ih rest hm hrestwf
        have hboundm : ∀ y ∈ drain lists rest, m.value ≤ y := by
          intro y hy
          obtain ⟨e, heE, hev⟩ := hbound' y hy
          exact le_trans (hmin e (hrestmem e heE)) hev
        constructor
        · exact List.sorted_cons.mpr ⟨hboundm, hsorted'⟩
        · intro y hy
          rcases List.mem_cons.mp hy with rfl | hy'
          · exact ⟨m, hmmem, le_refl _⟩
          · exact ⟨m, hmmem, hboundm y hy'⟩

/-- The merge output is sorted whenever every source is sorted. -/
theorem mergeLists_sorted {lists : List (List Int)}
    (hsorted : ∀ l ∈ lists, List.Sorted (· ≤ ·) l) :
    List.Sorted (· ≤ ·) (MergeLists lists) :=
  (drain_sorted_aux lists hsorted _ (seed lists) (le_refl _) seed_wf).1

theorem coe_flatten_eq_sum (lists : List (List Int)) :
    Multiset.ofList lists.flatten
      = (lists.map (fun l => Multiset.ofList l)).sum := by
  induction lists with
  | nil => simp
  | cons l ls ih =>
    rw [List.flatten_cons, List.map_cons, List.sum_cons, ← ih]
    exact (Multiset.coe_add l ls.flatten).symm

theorem flatten_filter_nonempty (lists : List (List Int)) :
    (lists.filter (fun l => !l.isEmpty)).flatten = lists.flatten := by
  induction lists with
  | nil => rfl
  | cons l ls ih =>
    cases l with
    | nil => simpa [List.filter_cons] using ih
    | cons v t => simp [List.filter_cons, ih]

theorem chain_le_sorted {l : List Int} (h : List.Chain' (· ≤ ·) l) :
    List.Sorted (· ≤ ·) l :=
  List.chain'_iff_pairwise.mp h

/-- Claim C1: for K individually ascending-sorted sources the output of
`MergeLists` is non-decreasing: every element is at most its successor. -/
theorem mergeLists_output_nondecreasing (lists : List (List Int))
    (hsorted : ∀ l ∈ lists, List.Chain' (· ≤ ·) l) :
    List.Chain' (· ≤ ·) (MergeLists lists) :=
  List.chain'_iff_pairwise.mpr
    (mergeLists_sorted fun l hl => chain_le_sorted (hsorted l hl))

/-- Witness for C1 at the spec's first concrete scenario. -/
theorem mergeLists_output_nondecreasing_witness :
    (∀ l ∈ [[(1 : Int), 4, 5], [2, 6, 8, 9], [0, 3, 7, 10, 11]],
        List.Chain' (· ≤ ·) l) ∧
    List.Chain' (· ≤ ·)
      (MergeLists [[(1 : Int), 4, 5], [2, 6, 8, 9], [0, 3, 7, 10, 11]]) :=
  ⟨by simp [List.chain'_cons], mergeLists_output_nondecreasing _ (by simp [List.chain'_cons])⟩

/-- Claim C2: the multiset of output values of `MergeLists` equals the union,
with multiplicity, of the multisets of all K (ascending-sorted) sources. -/
theorem mergeLists_multiset_eq (lists : List (List Int))
    (_hsorted : ∀ l ∈ lists, List.Chain' (· ≤ ·) l) :
    Multiset.ofList (MergeLists lists)
      = (lists.map (fun l => Multiset.ofList l)).sum := by
  rw [Multiset.coe_eq_coe.mpr (mergeLists_perm lists)]
  exact coe_flatten_eq_sum lists

/-- Witness for C2 at the spec's second concrete scenario. -/
theorem mergeLists_multiset_eq_witness :
    (∀ l ∈ [[(-5 : Int), -1, 0], [-10, 0, 0, 1], [5, 10], [2, 3, 3]],
        List.Chain' (· ≤ ·) l) ∧
    Multiset.ofList (MergeLists [[(-5 : Int), -1, 0], [-10, 0, 0, 1], [5, 10], [2, 3, 3]])
      = ([[(-5 : Int), -1, 0], [-10, 0, 0, 1], [5, 10], [2, 3, 3]].map
          (fun l => Multiset.ofList l)).sum :=
  ⟨by simp [List.chain'_cons], mergeLists_multiset_eq _ (by simp [List.chain'_cons])⟩

/-- Claim C3: with no sortedness assumption at all, `MergeLists` (a total
function, hence terminating) returns exactly as many elements as all sources
hold together. -/
theorem mergeLists_length_total (lists : List (List Int)) :
    (MergeLists lists).length = (lists.map List.length).sum := by
  rw [(mergeLists_perm lists).length_eq]
  exact List.length_flatten lists

/-- Claim C4: zero sources produce the empty output, and empty sources are
skipped: the merge equals the merge of the non-empty sources alone. -/
theorem mergeLists_empty_tolerance :
    MergeLists ([] : List (List Int)) = [] ∧
    ∀ lists : List (List Int), (∀ l ∈ lists, List.Chain' (· ≤ ·) l) →
      MergeLists lists = MergeLists (lists.filter (fun l => !l.isEmpty)) := by
  constructor
  · exact drain_eq_nil rfl
  · intro lists hchain
    have hsorted : ∀ l ∈ lists, List.Sorted (· ≤ ·) l :=
      fun l hl => chain_le_sorted (hchain l hl)
    have hsorted' : ∀ l ∈ lists.filter (fun l => !l.isEmpty), List.Sorted (· ≤ ·) l :=
      fun l hl => hsorted l (List.mem_of_mem_filter hl)
    have hperm : (MergeLists lists).Perm
        (MergeLists (lists.filter (fun l => !l.isEmpty))) := by
      refine (mergeLists_perm lists).trans ?_
      rw [← flatten_filter_nonempty lists]
      exact (mergeLists_perm _).symm
    exact List.eq_of_perm_of_sorted hperm (mergeLists_sorted hsorted)
      (mergeLists_sorted hsorted')

/-- Witness for C4 at the spec's third concrete scenario. -/
theorem mergeLists_empty_tolerance_witness :
    MergeLists ([] : List (List Int)) = [] ∧
    MergeLists [[(10 : Int), 20], [], [5, 15]]
      = MergeLists ([[(10 : Int), 20], [], [5, 15]].filter (fun l => !l.isEmpty)) :=
  ⟨mergeLists_empty_tolerance.1, mergeLists_empty_tolerance.2 _ (by simp [List.chain'_cons])⟩

/-- Claim C5: merging a single sorted source returns that source unchanged. -/
theorem mergeLists_single_passthrough (s : List Int)
    (hs : List.Chain' (· ≤ ·) s) : MergeLists [s] = s := by
  have hsorted : ∀ l ∈ [s], List.Sorted (· ≤ ·) l := by
    intro l hl
    rw [List.mem_singleton] at hl
    subst hl
    exact chain_le_sorted hs
  have hperm : (MergeLists [s]).Perm s := by
    have := mergeLists_perm [s]
    simpa using this
  exact List.eq_of_perm_of_sorted hperm (mergeLists_sorted hsorted)
    (chain_le_sorted hs)

/-- Witness for C5 at the spec's fourth concrete scenario. -/
theorem mergeLists_single_passthrough_witness :
    List.Chain' (· ≤ ·) [(1 : Int), 2, 3, 4, 5] ∧
    MergeLists [[(1 : Int), 2, 3, 4, 5]] = [(1 : Int), 2, 3, 4, 5] :=
  ⟨by simp [List.chain'_cons], mergeLists_single_passthrough _ (by simp [List.chain'_cons])⟩

/-- Counterexample for C6: the comparator `Element::operator>` compares by
`value` alone, so two distinct candidates with equal values (here from
sources 0 and 1) are ordered by it in neither direction — it implements no
tie-break rule for equal values. -/
theorem elementGt_no_tiebreak :
    Element.gtOp ⟨5, 0, 0⟩ ⟨5, 1, 0⟩ = false ∧
    Element.gtOp ⟨5, 1, 0⟩ ⟨5, 0, 0⟩ = false ∧
    (⟨5, 0, 0⟩ : Element) ≠ ⟨5, 1, 0⟩ := by
  refine ⟨by decide, by decide, by decide⟩

/-- Claim C6 (amended): `MergeLists` is a deterministic function — two
evaluations on equal inputs give identical output sequences — although its
comparator orders candidates by `value` only and leaves equal values
mutually incomparable. -/
theorem mergeLists_deterministic (l₁ l₂ : List (List Int)) (h : l₁ = l₂) :
    MergeLists l₁ = MergeLists l₂ :=
  congrArg MergeLists h

/-- Witness for the determinism theorem at a concrete input. -/
theorem mergeLists_deterministic_witness :
    ([[(1 : Int), 2]] : List (List Int)) = [[(1 : Int), 2]] ∧
    MergeLists [[(1 : Int), 2]] = MergeLists [[(1 : Int), 2]] :=
  ⟨rfl, mergeLists_deterministic _ _ rfl⟩

/-- Invariant of the drain loop: the heap holds at most one candidate per
source (no two candidates share a `list_index`) and every candidate is
well-formed: its cursor is in range and its `value` is the source element at
the cursor. -/
def HeapInv (lists : List (List Int)) (heap : List Element) : Prop :=
  ((heap.map Element.list_index).Nodup) ∧ ∀ e ∈ heap, WFel lists e

theorem heapInv_seed (lists : List (List Int)) : HeapInv lists (seed lists) :=
  ⟨seedFrom_nodup lists 0, seed_wf⟩

theorem heapInv_step {lists : List (List Int)} {heap : List Element}
    {v : Int} {heap' : List Element} (hinv : HeapInv lists heap)
    (hs : step lists heap = some (v, heap')) : HeapInv lists heap' := by
  obtain ⟨hnodup, hwf⟩ := hinv
  rcases he : extractMin heap with _ | ⟨m, rest⟩
  · simp [step, he] at hs
  · have hperm := extractMin_perm he
    have hmmem : m ∈ heap := hperm.mem_iff.mpr (List.mem_cons_self _ _)
    have hnodup' : ((m :: rest).map Element.list_index).Nodup :=
      ((hperm.map Element.list_index).nodup_iff).mp hnodup
    have hrestwf : ∀ e ∈ rest, WFel lists e := by
      intro e heE
      exact hwf e (hperm.mem_iff.mpr (List.mem_cons_of_mem _ heE))
    rw [step_spec he] at hs
    by_cases hnext : m.element_index + 1 < (lists.getD m.list_index []).length
    · rw [if_pos hnext] at hs
      simp at hs
      obtain ⟨rfl, rfl⟩ := hs
      constructor
      · simpa using hnodup'
      · intro e heE
        rcases List.mem_cons.mp heE with rfl | heE'
        · exact ⟨hnext, by simp [WFel]⟩
        · exact hrestwf e heE'
    · rw [if_neg hnext] at hs
      simp at hs
      obtain ⟨rfl, rfl⟩ := hs
      constructor
      · exact (List.nodup_cons.mp (by simpa using hnodup')).2
      · exact hrestwf

/-- Claim C7: for sorted sources, the heap invariant — at most one candidate
per non-exhausted source, each candidate holding its source's element at the
cursor, which is the smallest unconsumed element of that source — holds after
seeding, is preserved by every drain step, and entails minimality of each
candidate among the unconsumed part of its source. -/
theorem mergeLists_heap_invariant (lists : List (List Int))
    (hsorted : ∀ l ∈ lists, List.Chain' (· ≤ ·) l) :
    HeapInv lists (seed lists) ∧
    (∀ heap v heap', HeapInv lists heap → step lists heap = some (v, heap') →
      HeapInv lists heap') ∧
    (∀ heap, HeapInv lists heap → ∀ e ∈ heap, ∀ j,
      e.element_index ≤ j → j < (lists.getD e.list_index []).length →
      e.value ≤ (lists.getD e.list_index []).getD j 0) := by
  refine ⟨heapInv_seed lists, fun heap v heap' hinv hs => heapInv_step hinv hs, ?_⟩
  intro heap hinv e heE j hij hj
  have hwf : WFel lists e := hinv.2 e heE
  rcases Nat.eq_or_lt_of_le hij with rfl | hlt
  · exact le_of_eq hwf.2
  · rw [hwf.2]
    exact sorted_getD_le (chain_le_sorted (hsorted _ (wf_source_mem hwf))) hlt hj

/-- Witness for C7: the invariant established concretely after seeding. -/
theorem mergeLists_heap_invariant_witness :
    HeapInv [[(1 : Int), 2], [3]] (seed [[(1 : Int), 2], [3]]) :=
  (mergeLists_heap_invariant _ (by simp [List.chain'_cons])).1

/-!
File-I/O layer (`ReadInputFile`, `WriteOutputFile`).  File contents are
modelled as `List Char`; "the file cannot be opened" is modelled by the
`Option`/`Bool` parameter, as it is an environment condition independent of
the contents.  `operator>>` on `int` skips whitespace and then consumes an
optional sign followed by a maximal digit run; it fails with `eofbit` set
when the attempt reaches the end of the input (whitespace-only remainder, or
a lone sign at end-of-input), and with only `failbit` when a non-numeric
character stops it — the distinction line 54 of the C++ tests via `eof()`.
-/

/-- Whitespace as recognised by the default-locale `std::isspace` used by
stream extraction. -/
def isSpaceChar (c : Char) : Bool :=
  c == ' ' || c == '\t' || c == '\n' || c == '\x0b' || c == '\x0c' || c == '\r'

/-- Leading-whitespace skip performed by formatted extraction. -/
def dropSpaces (cs : List Char) : List Char :=
  cs.dropWhile isSpaceChar

/-- Optional single sign character at the front of an integer token. -/
def splitSign : List Char → Bool × List Char
  | [] => (false, [])
  | c :: r => if c = '-' then (true, r) else if c = '+' then (false, r) else (false, c :: r)

/-- Value of a run of decimal digit characters. -/
def digitsToNat (ds : List Char) : Nat :=
  ds.foldl (fun a c => 10 * a + (c.toNat - 48)) 0

/-- Outcome of `input_file >> n` for the list count (lines 51-56): `eofEmpty`
when extraction failed with `eofbit` set (so the code returns zero sources),
`bad` when it failed with input remaining (so the code throws), and the
parsed value plus the rest of the input on success. -/
inductive CountRes where
  | eofEmpty
  | bad
  | val (n : Int) (rest : List Char)
  deriving DecidableEq, Repr

/-- Embeds the count extraction `input_file >> n` together with the
`eof()` test of lines 51-56. -/
def parseCount (cs : List Char) : CountRes :=
  let cs1 := dropSpaces cs
  if cs1.isEmpty then CountRes.eofEmpty
  else
    let p := splitSign cs1
    let ds := p.2.takeWhile Char.isDigit
    if ds.isEmpty then
      if p.2.isEmpty then CountRes.eofEmpty else CountRes.bad
    else
      CountRes.val (if p.1 then -(digitsToNat ds : Int) else (digitsToNat ds : Int))
        (p.2.drop ds.length)

/-- Embeds `input_file.ignore(max, givenNewline)` / the consumption of a line by
`std::getline`: drop up to and including the first newline. -/
def dropLine (cs : List Char) : List Char :=
  (cs.dropWhile (fun c => c != '\n')).drop 1

/-- Embeds one `ss >> number` extraction inside the line loop (lines 67-71):
skip whitespace, then an optional sign and a maximal non-empty digit run. -/
def parseIntToken (cs : List Char) : Option (Int × List Char) :=
  let cs1 := dropSpaces cs
  let p := splitSign cs1
  let ds := p.2.takeWhile Char.isDigit
  if ds.isEmpty then none
  else
    some (if p.1 then -(digitsToNat ds : Int) else (digitsToNat ds : Int),
      p.2.drop ds.length)

theorem dropSpaces_length_le (cs : List Char) : (dropSpaces cs).length ≤ cs.length :=
  (List.dropWhile_sublist isSpaceChar).length_le

theorem splitSign_length_le (cs : List Char) : (splitSign cs).2.length ≤ cs.length := by
  cases cs with
  | nil => simp [splitSign]
  | cons c r =>
    simp only [splitSign]
    split
    · simp
    · split <;> simp

theorem parseIntToken_shrink {cs : List Char} {vr : Int × List Char}
    (hp : parseIntToken cs = some vr) : vr.2.length < cs.length := by
  obtain ⟨v, rest⟩ := vr
  simp only [parseIntToken] at hp
  split at hp
  · exact absurd hp (by simp)
  · rename_i hds
    rw [Option.some_inj, Prod.mk.injEq] at hp
    obtain ⟨_, h2⟩ := hp
    have h2' : rest.length = (splitSign (dropSpaces cs)).2.length
        - ((splitSign (dropSpaces cs)).2.takeWhile Char.isDigit).length := by
      rw [← h2, List.length_drop]
    have hlen1 : 1 ≤ ((splitSign (dropSpaces cs)).2.takeWhile Char.isDigit).length := by
      rcases hq : (splitSign (dropSpaces cs)).2.takeWhile Char.isDigit with _ | _
      · rw [hq] at hds; simp at hds
      · simp
    have hlen2 : ((splitSign (dropSpaces cs)).2.takeWhile Char.isDigit).length
        ≤ (splitSign (dropSpaces cs)).2.length :=
      (List.takeWhile_sublist Char.isDigit).length_le
    have hlen3 := splitSign_length_le (dropSpaces cs)
    have hlen4 := dropSpaces_length_le cs
    simp only [h2']
    omega

/-- Embeds the per-line parse `while (ss >> number) push_back(number)`
(lines 66-71): collect integer tokens until extraction fails. -/
def parseLineInts (cs : List Char) : List Int :=
  match hp : parseIntToken cs with
  | none => []
  | some vr => vr.1 :: parseLineInts vr.2
termination_by cs.length
decreasing_by
  exact parseIntToken_shrink hp

/-- Error conditions of `ReadInputFile`, one per `throw` site: the file did
not open (line 48), the count was unreadable (line 55), and end-of-file hit
before all K list lines were read (line 75). -/
inductive ReadError where
  | cantOpen
  | badCount
  | eofLists
  deriving DecidableEq, Repr

/-- Embeds the line-reading loop of `ReadInputFile` (lines 64-77): `k` times,
`getline` a line (failing at end of input) and parse its integers. -/
def readLists : List Char → Nat → Except ReadError (List (List Int))
  | _, 0 => Except.ok []
  | cs, k + 1 =>
    if cs.isEmpty then Except.error ReadError.eofLists
    else
      match readLists (dropLine cs) k with
      | Except.error e => Except.error e
      | Except.ok ls =>
          Except.ok (parseLineInts (cs.takeWhile (fun c => c != '\n')) :: ls)

/-- Embeds `NWayMerger::ReadInputFile` (lines 45-80).  `none` stands for a
file that cannot be opened.  The for-loop bound `for (int i = 0; i < n; ++i)`
executes `n.toNat` times (never, for negative `n`). -/
def ReadInputFile (file : Option (List Char)) : Except ReadError (List (List Int)) :=
  match file with
  | none => Except.error ReadError.cantOpen
  | some cs =>
    match parseCount cs with
    | CountRes.eofEmpty => Except.ok []
    | CountRes.bad => Except.error ReadError.badCount
    | CountRes.val n rest => readLists (dropLine rest) n.toNat

theorem dropLine_shrink {cs : List Char} (h : cs ≠ []) :
    (dropLine cs).length < cs.length := by
  have h1 : (dropLine cs).length
      = (cs.dropWhile (fun c => c != '\n')).length - 1 := by
    simp [dropLine]
  have h2 : (cs.dropWhile (fun c => c != '\n')).length ≤ cs.length :=
    (List.dropWhile_sublist _).length_le
  have h3 : 1 ≤ cs.length := by
    cases cs with
    | nil => exact absurd rfl h
    | cons c r => simp
  omega

/-- Number of lines `std::getline` can deliver from the given input before
failing: one per remaining (possibly unterminated) line. -/
def numLines (cs : List Char) : Nat :=
  if h : cs.isEmpty then 0 else numLines (dropLine cs) + 1
termination_by cs.length
decreasing_by
  exact dropLine_shrink (by simpa using h)

theorem numLines_nil : numLines [] = 0 := by
  rw [numLines]
  simp

theorem numLines_cons {cs : List Char} (h : ¬cs.isEmpty) :
    numLines cs = numLines (dropLine cs) + 1 := by
  rw [numLines]
  simp [h]

theorem readLists_error_iff :
    ∀ (k : Nat) (cs : List Char),
      (∃ e, readLists cs k = Except.error e) ↔ numLines cs < k := by
  intro k
  induction k with
  | zero =>
    intro cs
    constructor
    · rintro ⟨e, he⟩
      simp [readLists] at he
    · intro hcon
      omega
  | succ k ih =>
    intro cs
    by_cases h : cs.isEmpty
    · have hcs : cs = [] := by simpa using h
      subst hcs
      constructor
      · intro _
        rw [numLines_nil]
        omega
      · intro _
        exact ⟨ReadError.eofLists, by simp [readLists]⟩
    · rw [numLines_cons h]
      constructor
      · rintro ⟨e, he⟩
        simp only [readLists, h] at he
        rcases hr : readLists (dropLine cs) k with e' | ls
        · have : numLines (dropLine cs) < k := (ih (dropLine cs)).mp ⟨e', hr⟩
          omega
        · rw [hr] at he
          simp at he
      · intro hlt
        have : numLines (dropLine cs) < k := by omega
        obtain ⟨e, he⟩ := (ih (dropLine cs)).mpr this
        refine ⟨e, ?_⟩
        simp only [readLists, h, he]
        simp

/-- Counterexample for C8: a whitespace-only file is non-empty and its count
line holds no parsable integer, yet `ReadInputFile` succeeds with zero
sources instead of raising an error (the extraction hit end-of-input, so
line 54 of the C++ takes the `eof()` early return). -/
theorem readInputFile_space_only_ok :
    ReadInputFile (some [' ']) = Except.ok [] ∧ ([' '] : List Char) ≠ [] := by
  constructor
  · rfl
  · simp

/-- Claim C8 (amended): `ReadInputFile` fails exactly when the file cannot be
opened, when the count extraction fails with input left over, or when fewer
than K list-lines remain after the count; a file that is empty — or whose
count extraction runs off the end of the input, e.g. only whitespace —
yields zero sources without error, and a present-but-blank line is an empty
source. -/
theorem readInputFile_error_iff :
    (ReadInputFile none = Except.error ReadError.cantOpen) ∧
    (∀ cs : List Char,
      (∃ e, ReadInputFile (some cs) = Except.error e) ↔
        (parseCount cs = CountRes.bad ∨
          ∃ n rest, parseCount cs = CountRes.val n rest ∧
            numLines (dropLine rest) < n.toNat)) ∧
    (ReadInputFile (some []) = Except.ok []) ∧
    (∀ (rest : List Char) (k : Nat),
      readLists (Char.ofNat 10 :: rest) (k + 1)
        = (readLists rest k).map (fun ls => ([] : List Int) :: ls)) := by
  refine ⟨rfl, ?_, rfl, ?_⟩
  · intro cs
    rcases hpc : parseCount cs with _ | _ | ⟨n, rest⟩
    · constructor
      · rintro ⟨e, he⟩
        simp [ReadInputFile, hpc] at he
      · rintro (hbad | ⟨n, rest, hval, _⟩)
        · simp at hbad
        · simp at hval
    · constructor
      · intro _
        exact Or.inl rfl
      · intro _
        exact ⟨ReadError.badCount, by simp [ReadInputFile, hpc]⟩
    · have hred : ReadInputFile (some cs) = readLists (dropLine rest) n.toNat := by
        simp [ReadInputFile, hpc]
      rw [hred]
      rw [readLists_error_iff]
      constructor
      · intro hlt
        exact Or.inr ⟨n, rest, rfl, hlt⟩
      · rintro (hbad | ⟨n', rest', hval, hlt⟩)
        · simp at hbad
        · simp only [CountRes.val.injEq] at hval
          obtain ⟨rfl, rfl⟩ := hval
          exact hlt
  · intro rest k
    have hline : dropLine (Char.ofNat 10 :: rest) = rest := by
      simp [dropLine, List.dropWhile]
    have hnone : parseIntToken [] = none := rfl
    have hnil : parseLineInts [] = [] := by
      rw [parseLineInts, hnone]
    have hblank : parseLineInts ((Char.ofNat 10 :: rest).takeWhile (fun c => c != '\n')) = [] := by
      have ht : (Char.ofNat 10 :: rest).takeWhile (fun c => c != '\n') = [] := by
        simp [List.takeWhile]
      rw [ht, hnil]
    rcases hr : readLists rest k with e | ls
    · simp [readLists, hline, hr, Except.map]
    · simp [readLists, hline, hr, hblank, hnil, Except.map]

/-- Claim C10: when the count token of a readable file parses to a negative
integer, `ReadInputFile` returns zero sources without error (the reading loop
runs zero times), and the merge of zero sources is empty. -/
theorem readInputFile_negative_count (cs : List Char) (n : Int) (rest : List Char)
    (hp : parseCount cs = CountRes.val n rest) (hneg : n < 0) :
    ReadInputFile (some cs) = Except.ok [] ∧ MergeLists [] = [] := by
  constructor
  · have hz : n.toNat = 0 := Int.toNat_of_nonpos (le_of_lt hneg)
    simp [ReadInputFile, hp, hz, readLists]
  · exact drain_eq_nil rfl

/-- Witness for C10 on the concrete file contents `-2`. -/
theorem readInputFile_negative_count_witness :
    parseCount ['-', '2'] = CountRes.val (-2) [] ∧ ((-2 : Int) < 0) ∧
    ReadInputFile (some ['-', '2']) = Except.ok [] :=
  ⟨by decide, by decide,
    (readInputFile_negative_count ['-', '2'] (-2) [] (by decide) (by decide)).1⟩

/-- Digits of a positive number accumulated most-significant first, as
`operator<<` renders the magnitude of an `int`. -/
def natDigitsAux (n : Nat) (acc : List Char) : List Char :=
  if h : n = 0 then acc else natDigitsAux (n / 10) (Nat.digitChar (n % 10) :: acc)
termination_by n
decreasing_by
  exact Nat.div_lt_self (Nat.pos_of_ne_zero h) (by omega)

/-- Decimal digit characters of a natural number (`"0"` for zero). -/
def natChars (n : Nat) : List Char :=
  if n = 0 then ['0'] else natDigitsAux n []

/-- Embeds `output_file << data[i]` for an `int`: optional minus sign
followed by the decimal magnitude. -/
def intChars (n : Int) : List Char :=
  if n < 0 then '-' :: natChars n.natAbs else natChars n.toNat

/-- Error condition of `WriteOutputFile`: the destination did not open
(line 130). -/
inductive WriteError where
  | cantOpen
  deriving DecidableEq, Repr

/-- Embeds the output loop of `WriteOutputFile` (lines 133-139): for each
index `i`, the rendered integer, then a space when `i < data.size() - 1`,
and a final newline after the loop. -/
def writeChars (data : List Int) : List Char :=
  ((List.range data.length).foldl
    (fun acc i => acc ++ intChars (data.getD i 0) ++
      (if i < data.length - 1 then [' '] else [])) []) ++ ['\n']

/-- Embeds `NWayMerger::WriteOutputFile` (lines 127-140); `canOpen` models
whether the destination stream opens. -/
def WriteOutputFile (canOpen : Bool) (data : List Int) : Except WriteError (List Char) :=
  if canOpen then Except.ok (writeChars data) else Except.error WriteError.cantOpen

/-- Modelled from the spec (the sink contract of section 6): space-separated
decimal integers, no separator after the last one. -/
def renderSpec : List Int → List Char
  | [] => []
  | [x] => intChars x
  | x :: y :: t => intChars x ++ ' ' :: renderSpec (y :: t)

theorem foldl_append_flatten {α : Type} (g : α → List Char) :
    ∀ (l : List α) (init : List Char),
      l.foldl (fun acc i => acc ++ g i) init = init ++ (l.map g).flatten := by
  intro l
  induction l with
  | nil => intro init; simp
  | cons a t ih =>
    intro init
    simp only [List.foldl_cons, List.map_cons, List.flatten_cons]
    rw [ih]
    simp [List.append_assoc]

theorem writeChars_body_eq (data : List Int) :
    (List.range data.length).foldl
        (fun acc i => acc ++ intChars (data.getD i 0) ++
          (if i < data.length - 1 then [' '] else [])) []
      = ((List.range data.length).map
          (fun i => intChars (data.getD i 0) ++
            (if i < data.length - 1 then [' '] else []))).flatten := by
  have hfun : (fun (acc : List Char) (i : Nat) => acc ++ intChars (data.getD i 0) ++
      (if i < data.length - 1 then [' '] else []))
      = fun (acc : List Char) (i : Nat) => acc ++ (intChars (data.getD i 0) ++
        (if i < data.length - 1 then [' '] else [])) := by
    funext acc i
    rw [List.append_assoc]
  rw [hfun]
  have := foldl_append_flatten
    (fun i => intChars (data.getD i 0) ++ (if i < data.length - 1 then [' '] else []))
    (List.range data.length) []
  simpa using this

theorem range_map_render (data : List Int) :
    ((List.range data.length).map
      (fun i => intChars (data.getD i 0) ++
        (if i < data.length - 1 then [' '] else []))).flatten = renderSpec data := by
  induction data with
  | nil => simp [renderSpec]
  | cons x t ih =>
    rw [List.length_cons, List.range_succ_eq_map, List.map_cons, List.map_map,
      List.flatten_cons]
    have hcomp : (List.map ((fun i => intChars ((x :: t).getD i 0) ++
        (if i < t.length + 1 - 1 then [' '] else [])) ∘ Nat.succ)
          (List.range t.length)).flatten = renderSpec t := by
      rw [← ih]
      congr 1
      apply List.map_congr_left
      intro i _
      simp only [Function.comp_apply, List.getD_cons_succ]
      congr 1
      by_cases hc : i < t.length - 1
      · rw [if_pos hc, if_pos (by omega)]
      · rw [if_neg hc, if_neg (by omega)]
    rw [hcomp]
    cases t with
    | nil => simp [renderSpec]
    | cons y t2 =>
      have h0 : 0 < (y :: t2).length + 1 - 1 := by simp
      rw [if_pos h0]
      simp [renderSpec]

theorem writeChars_eq_renderSpec (data : List Int) :
    writeChars data = renderSpec data ++ ['\n'] := by
  rw [writeChars, writeChars_body_eq, range_map_render]

theorem natDigitsAux_mem : ∀ (n : Nat) (acc : List Char) (c : Char),
    c ∈ natDigitsAux n acc → c ∈ acc ∨ ∃ d, d < 10 ∧ c = Nat.digitChar d := by
  intro n
  induction n using Nat.strong_induction_on with
  | _ n ih =>
    intro acc c hc
    rw [natDigitsAux] at hc
    by_cases h : n = 0
    · rw [dif_pos h] at hc
      exact Or.inl hc
    · rw [dif_neg h] at hc
      rcases ih (n / 10) (Nat.div_lt_self (Nat.pos_of_ne_zero h) (by omega)) _ c hc
        with h1 | h2
      · rcases List.mem_cons.mp h1 with rfl | h3
        · exact Or.inr ⟨n % 10, Nat.mod_lt _ (by omega), rfl⟩
        · exact Or.inl h3
      · exact Or.inr h2

theorem digitChar_ne_newline : ∀ d < 10, Nat.digitChar d ≠ '\n' := by decide

theorem natChars_ne_newline {m : Nat} {c : Char} (hc : c ∈ natChars m) : c ≠ '\n' := by
  rw [natChars] at hc
  by_cases h : m = 0
  · rw [if_pos h] at hc
    simp at hc
    subst hc
    decide
  · rw [if_neg h] at hc
    rcases natDigitsAux_mem m [] c hc with h1 | ⟨d, hd, rfl⟩
    · simp at h1
    · exact digitChar_ne_newline d hd

theorem intChars_ne_newline {n : Int} {c : Char} (hc : c ∈ intChars n) : c ≠ '\n' := by
  rw [intChars] at hc
  by_cases h : n < 0
  · rw [if_pos h] at hc
    rcases List.mem_cons.mp hc with rfl | h2
    · decide
    · exact natChars_ne_newline h2
  · rw [if_neg h] at hc
    exact natChars_ne_newline hc

theorem renderSpec_ne_newline : ∀ (data : List Int) (c : Char),
    c ∈ renderSpec data → c ≠ '\n' := by
  intro data
  induction data with
  | nil => intro c hc; simp [renderSpec] at hc
  | cons x t ih =>
    intro c hc
    cases t with
    | nil =>
      rw [renderSpec] at hc
      exact intChars_ne_newline hc
    | cons y t2 =>
      rw [renderSpec] at hc
      rcases List.mem_append.mp hc with h1 | h2
      · exact intChars_ne_newline h1
      · rcases List.mem_cons.mp h2 with rfl | h3
        · decide
        · exact ih c h3

/-- Claim C9: `WriteOutputFile` fails exactly on an unopenable destination,
and otherwise renders the data as space-separated decimal integers with no
separator after the last integer and exactly one newline, at the very end. -/
theorem writeOutputFile_spec (data : List Int) :
    WriteOutputFile false data = Except.error WriteError.cantOpen ∧
    WriteOutputFile true data = Except.ok (renderSpec data ++ ['\n']) ∧
    (writeChars data).count '\n' = 1 ∧
    (writeChars data).getLast? = some '\n' := by
  refine ⟨rfl, ?_, ?_, ?_⟩
  · rw [WriteOutputFile, if_pos rfl, writeChars_eq_renderSpec]
  · rw [writeChars_eq_renderSpec, List.count_append]
    have h0 : (renderSpec data).count '\n' = 0 :=
      List.count_eq_zero.mpr (fun hmem => renderSpec_ne_newline data '\n' hmem rfl)
    rw [h0]
    rfl
  · rw [writeChars_eq_renderSpec]
    exact List.getLast?_concat _

/-- Witness for C8: a non-numeric count with input remaining is an error. -/
theorem readInputFile_error_iff_witness :
    ∃ e, ReadInputFile (some ['x']) = Except.error e :=
  (readInputFile_error_iff.2.1 ['x']).mpr (Or.inl (by decide))
